import Mathlib

/-!
Verification of the RL-Examples repository: a shallow embedding of its
gridworld environments and tabular reinforcement-learning agents
(off-policy Monte Carlo control, Double Q-learning, value iteration),
with theorems settling the specification claims.

Python dictionaries are modelled as insertion-ordered association lists,
so that `max(d, key=d.get)` (first key attaining the maximal value, in
insertion order) and lazy per-state initialization are captured exactly.
Machine floats are modelled as exact rationals.
-/

set_option maxHeartbeats 1000000

/-- The four movement actions of `GridworldAction` (environments.py). -/
inductive GWAction : Type where
  | north : GWAction
  | south : GWAction
  | west : GWAction
  | east : GWAction
deriving DecidableEq

/-- `list(GridworldAction)`: the member list in declaration order. -/
def gwActions : List GWAction := [.north, .south, .west, .east]

/-- Grid positions, as `(row, col)` pairs of integers (the `(y, x)` tuples
used by `GridworldWithObstacles`). -/
abbrev GWPos : Type := ℤ × ℤ

/-! ## Association lists modelling Python dicts -/

/-- `d[k]` as an option: first binding of `k` in insertion order. -/
def alookup {α β : Type} [DecidableEq α] : List (α × β) → α → Option β
  | [], _ => none
  | (k, v) :: rest, key => if key = k then some v else alookup rest key

/-- `k in d`. -/
def acontains {α β : Type} [DecidableEq α] (l : List (α × β)) (k : α) : Bool :=
  (alookup l k).isSome

/-- `d[k] = v`: replace the binding in place when present, else append,
exactly the insertion-order behaviour of a Python dict assignment. -/
def aset {α β : Type} [DecidableEq α] : List (α × β) → α → β → List (α × β)
  | [], k, v => [(k, v)]
  | (k', v') :: rest, k, v =>
    if k = k' then (k, v) :: rest else (k', v') :: aset rest k v

/-- Apply `f` to the value bound to `k`, when present.  (A Python read-write
such as `d[k] += x` raises `KeyError` on a missing key and produces no
result state, so only the present-key case models an actual execution;
theorems about updates carry the needed membership facts.) -/
def amodify {α β : Type} [DecidableEq α] (k : α) (f : β → β) :
    List (α × β) → List (α × β)
  | [] => []
  | (k', v') :: rest =>
    if k = k' then (k', f v') :: rest else (k', v') :: amodify k f rest

theorem alookup_aset_self {α β : Type} [DecidableEq α]
    (l : List (α × β)) (k : α) (v : β) : alookup (aset l k v) k = some v := by
  induction l with
  | nil => simp [aset, alookup]
  | cons p rest ih =>
    obtain ⟨k', v'⟩ := p
    by_cases h : k = k' <;> simp [aset, alookup, h, ih]

theorem alookup_aset_ne {α β : Type} [DecidableEq α]
    (l : List (α × β)) (k k₂ : α) (v : β) (hne : k₂ ≠ k) :
    alookup (aset l k v) k₂ = alookup l k₂ := by
  induction l with
  | nil => simp [aset, alookup, hne]
  | cons p rest ih =>
    obtain ⟨k', v'⟩ := p
    by_cases h : k = k'
    · subst h; simp [aset, alookup, hne]
    · by_cases h2 : k₂ = k' <;> simp [aset, alookup, h, h2, ih]

theorem alookup_amodify_self {α β : Type} [DecidableEq α]
    (l : List (α × β)) (k : α) (f : β → β) :
    alookup (amodify k f l) k = (alookup l k).map f := by
  induction l with
  | nil => simp [amodify, alookup]
  | cons p rest ih =>
    obtain ⟨k', v'⟩ := p
    by_cases h : k = k' <;> simp [amodify, alookup, h, ih]

theorem alookup_amodify_ne {α β : Type} [DecidableEq α]
    (l : List (α × β)) (k k₂ : α) (f : β → β) (hne : k₂ ≠ k) :
    alookup (amodify k f l) k₂ = alookup l k₂ := by
  induction l with
  | nil => simp [amodify]
  | cons p rest ih =>
    obtain ⟨k', v'⟩ := p
    by_cases h : k = k'
    · subst h; simp [amodify, alookup, hne]
    · by_cases h2 : k₂ = k' <;> simp [amodify, alookup, h, h2, ih]

theorem alookup_append_left {α β : Type} [DecidableEq α]
    (l l₂ : List (α × β)) (k : α) (h : (alookup l k).isSome) :
    alookup (l ++ l₂) k = alookup l k := by
  induction l with
  | nil => simp [alookup] at h
  | cons p rest ih =>
    obtain ⟨k', v'⟩ := p
    by_cases hk : k = k' <;> simp [alookup, hk] at h ⊢
    · exact ih h

theorem alookup_append_right {α β : Type} [DecidableEq α]
    (l l₂ : List (α × β)) (k : α) (h : alookup l k = none) :
    alookup (l ++ l₂) k = alookup l₂ k := by
  induction l with
  | nil => simp
  | cons p rest ih =>
    obtain ⟨k', v'⟩ := p
    by_cases hk : k = k' <;> simp [alookup, hk] at h ⊢
    exact ih h

theorem keys_amodify {α β : Type} [DecidableEq α]
    (l : List (α × β)) (k : α) (f : β → β) :
    (amodify k f l).map Prod.fst = l.map Prod.fst := by
  induction l with
  | nil => rfl
  | cons p rest ih =>
    obtain ⟨k', v'⟩ := p
    by_cases h : k = k' <;> simp [amodify, h, ih]

theorem keys_aset_mem {α β : Type} [DecidableEq α]
    (l : List (α × β)) (k : α) (v : β) (h : (alookup l k).isSome) :
    (aset l k v).map Prod.fst = l.map Prod.fst := by
  induction l with
  | nil => simp [alookup] at h
  | cons p rest ih =>
    obtain ⟨k', v'⟩ := p
    by_cases hk : k = k' <;> simp [alookup, aset, hk] at h ⊢
    · exact ih h

theorem mem_amodify {α β : Type} [DecidableEq α]
    (l : List (α × β)) (k : α) (f : β → β) (p : α × β)
    (hp : p ∈ amodify k f l) : p ∈ l ∨ ∃ v, (k, v) ∈ l ∧ p = (k, f v) := by
  induction l with
  | nil => simp [amodify] at hp
  | cons q rest ih =>
    obtain ⟨k', v'⟩ := q
    by_cases h : k = k'
    · subst h
      simp [amodify] at hp
      rcases hp with h1 | h1
      · exact Or.inr ⟨v', by simp, by rw [h1]⟩
      · exact Or.inl (List.mem_cons_of_mem _ h1)
    · simp [amodify, h] at hp
      rcases hp with h1 | h1
      · exact Or.inl (by simp [h1])
      · rcases ih h1 with h2 | h2
        · exact Or.inl (List.mem_cons_of_mem _ h2)
        · obtain ⟨v, hv1, hv2⟩ := h2
          exact Or.inr ⟨v, List.mem_cons_of_mem _ hv1, hv2⟩

theorem mem_aset {α β : Type} [DecidableEq α]
    (l : List (α × β)) (k : α) (v : β) (p : α × β)
    (hp : p ∈ aset l k v) : p ∈ l ∨ p = (k, v) := by
  induction l with
  | nil => simp [aset] at hp; exact Or.inr hp
  | cons q rest ih =>
    obtain ⟨k', v'⟩ := q
    by_cases h : k = k'
    · subst h
      simp [aset] at hp
      rcases hp with h1 | h1
      · exact Or.inr h1
      · exact Or.inl (List.mem_cons_of_mem _ h1)
    · simp [aset, h] at hp
      rcases hp with h1 | h1
      · exact Or.inl (by simp [h1])
      · rcases ih h1 with h2 | h2
        · exact Or.inl (List.mem_cons_of_mem _ h2)
        · exact Or.inr h2

/-- `max(d, key=d.get)` over a row of action values: the first key in
insertion order attaining the maximal value (`none` on an empty dict,
where Python raises `ValueError`). -/
def argmaxAux {α : Type} (best : α × ℚ) : List (α × ℚ) → α
  | [] => best.1
  | (k, v) :: rest => if best.2 < v then argmaxAux (k, v) rest else argmaxAux best rest

def argmaxRow {α : Type} : List (α × ℚ) → Option α
  | [] => none
  | p :: rest => some (argmaxAux p rest)

/-! ## GridworldWithObstacles (environments.py, default 10x10 instance) -/

/-- The obstacle positions of the default (`hard=False`) environment. -/
def gwObstacles : List GWPos :=
  [(1, 3), (2, 3), (3, 3), (4, 3), (6, 1), (6, 2), (6, 3), (6, 5), (6, 6),
   (6, 7), (6, 8), (4, 6), (5, 6), (6, 6), (8, 2), (9, 2)]

def gwGoal : GWPos := (9, 9)

def gwWidth : ℤ := 10

def gwHeight : ℤ := 10

/-- The `.get(action, (y, x))` dispatch in `step`: any input that is not one
of the four enum members (modelled by `none`) falls back to staying put. -/
def gwNextPos (pos : GWPos) (action : Option GWAction) : GWPos :=
  match action with
  | some .north => (pos.1 - 1, pos.2)
  | some .south => (pos.1 + 1, pos.2)
  | some .east => (pos.1, pos.2 + 1)
  | some .west => (pos.1, pos.2 - 1)
  | none => (pos.1, pos.2)

/-- The bounds-and-obstacles validity test of `step`. -/
def gwValid (p : GWPos) : Bool :=
  decide (0 ≤ p.1) && decide (p.1 < gwHeight) && decide (0 ≤ p.2) &&
    decide (p.2 < gwWidth) && !(gwObstacles.contains p)

/-- `GridworldWithObstacles.step`, as a pure function of the current agent
position: returns `(next_state, reward, done)` (the info dict is empty). -/
def gwStep (pos : GWPos) (action : Option GWAction) : GWPos × ℚ × Bool :=
  let np := gwNextPos pos action
  let valid := gwValid np
  let pos' := if valid then np else pos
  let done := pos' = gwGoal
  let reward : ℚ := if done then 10 else -1/10
  let reward := if valid then reward else reward - 2
  (pos', reward, done)

/-! ## DynamicProgrammingGridworld and DynamicProgrammingAgent
(dynamic-programming.py).  States are the `(x, y)` pairs with
`0 ≤ x, y < 5`; the grid holds reward 10 at `(1, 0)` and 5 at `(3, 0)`. -/

abbrev DPState : Type := ℕ × ℕ

/-- `env.grid[y][x]` of `DynamicProgrammingGridworld`. -/
def dpReward (s : DPState) : ℚ :=
  if s = (1, 0) then 10 else if s = (3, 0) then 5 else 0

/-- The state iteration order of `initialize_transitions`:
`for y in range(5): for x in range(5): state = (x, y)`. -/
def dpStates : List DPState :=
  (List.range 5).flatMap (fun y => (List.range 5).map (fun x => (x, y)))

/-- `DynamicProgrammingAgent._move`: deterministic move with clamping at the
grid edges (height = width = 5). -/
def dpMove (s : DPState) (a : GWAction) : DPState :=
  match a with
  | .north => (s.1, s.2 - 1)
  | .south => (s.1, min (s.2 + 1) 4)
  | .west => (s.1 - 1, s.2)
  | .east => (min (s.1 + 1) 4, s.2)

/-- `initialize_transitions`: `transitions[state][action] =
[(next_state, 0.25, reward)]` with `reward = grid[y][x]` of the current
state. -/
def dpTransitionModel (s : DPState) (a : GWAction) : List (DPState × ℚ × ℚ) :=
  [(dpMove s a, 1/4, dpReward s)]

/-- `sum(prob * (reward + gamma * V[next_state]) for ...)` for one action. -/
def dpActionValue (gamma : ℚ) (V : DPState → ℚ) (s : DPState) (a : GWAction) : ℚ :=
  ((dpTransitionModel s a).map (fun e => e.2.1 * (e.2.2 + gamma * V e.1))).sum

/-- The Bellman optimality backup: `max(... for action in self.actions)`. -/
def dpBackup (gamma : ℚ) (V : DPState → ℚ) (s : DPState) : ℚ :=
  max (dpActionValue gamma V s .north)
    (max (dpActionValue gamma V s .south)
      (max (dpActionValue gamma V s .west) (dpActionValue gamma V s .east)))

/-- One sweep of `value_iteration`: every state's value is recomputed from
the pre-sweep value function (`new_V` is built on the side and only then
replaces `self.V`). -/
def dpSweep (gamma : ℚ) (V : DPState → ℚ) : DPState → ℚ :=
  fun s => dpBackup gamma V s

/-- `delta`: the largest absolute change across all states in one sweep,
accumulated with `delta = max(delta, abs(old_value - new_value))` from 0. -/
def dpDelta (V W : DPState → ℚ) : ℚ :=
  dpStates.foldl (fun d s => max d |V s - W s|) 0

/-- The initial value function `self.V = {state: 0.0 for state in ...}`. -/
def dpV0 : DPState → ℚ := fun _ => 0

/-- The `while True` loop of `value_iteration`, with explicit fuel: each
round performs one sweep, then exits exactly when `delta < phi`.  `none`
means the fuel was exhausted before the stopping test succeeded. -/
def dpValueIterationAux (gamma phi : ℚ) : ℕ → (DPState → ℚ) → Option (DPState → ℚ)
  | 0, _ => none
  | n + 1, V =>
    let W := dpSweep gamma V
    if dpDelta V W < phi then some W else dpValueIterationAux gamma phi n W

/-- `value_iteration` at its default arguments `gamma=0.9, phi=0.0001`,
started from the all-zero value function. -/
def dpValueIteration (fuel : ℕ) : Option (DPState → ℚ) :=
  dpValueIterationAux (9/10) (1/10000) fuel dpV0

/-! ## Monte Carlo control agent (monte-carlo.py) -/

/-- An inner `dict` of action values. -/
abbrev QRow : Type := List (GWAction × ℚ)

/-- An outer `dict` mapping states to action-value rows. -/
abbrev QTable : Type := List (GWPos × QRow)

/-- `{a: 0.0 for a in self.actions}`. -/
def zeroRow : QRow := gwActions.map (fun a => (a, 0))

/-- `self.Q[state][action]` when both keys are present; the defaults are
never reached in a modelled execution. -/
def rowGet (row : QRow) (a : GWAction) : ℚ := (alookup row a).getD 0

def tblGet (t : QTable) (s : GWPos) (a : GWAction) : ℚ :=
  rowGet ((alookup t s).getD []) a

/-- Option-valued table lookup, distinguishing absent entries. -/
def tblLookup (t : QTable) (s : GWPos) (a : GWAction) : Option ℚ :=
  (alookup t s).bind (fun row => alookup row a)

/-- `self.Q[state][action] = v` (the state key must be present, as in every
modelled execution; Python raises `KeyError` otherwise). -/
def tblSet (t : QTable) (s : GWPos) (a : GWAction) (v : ℚ) : QTable :=
  amodify s (fun row => aset row a v) t

/-- `self.pi[state]` (default never reached when the key is present). -/
def piGet (pol : List (GWPos × GWAction)) (s : GWPos) : GWAction :=
  (alookup pol s).getD .north

/-- `max(self.Q[state], key=self.Q[state].get)` on a state's row. -/
def rowArgmax (t : QTable) (s : GWPos) : GWAction :=
  (argmaxRow ((alookup t s).getD [])).getD .north

structure MCAgent where
  gamma : ℚ
  epsilon : ℚ
  Q : QTable
  C : QTable
  pi : List (GWPos × GWAction)

/-- `MonteCarloAgent.__init__` at given `gamma`, `epsilon`: empty tables.
The constructor body performs no validation and cannot raise, hence the
unconditional `.ok`. -/
def mkMonteCarloAgent (gamma epsilon : ℚ) : Except String MCAgent :=
  .ok ⟨gamma, epsilon, [], [], []⟩

/-- `MonteCarloAgent.initialize_state`: on a first visit, populate `Q` and
`C` with all-zero rows over all four actions and set `pi` to
`self.actions[0]` (NORTH); otherwise do nothing. -/
def mcInitState (A : MCAgent) (s : GWPos) : MCAgent :=
  if acontains A.Q s then A
  else { A with
    Q := A.Q ++ [(s, zeroRow)]
    C := A.C ++ [(s, zeroRow)]
    pi := A.pi ++ [(s, .north)] }

/-- `MonteCarloAgent.get_behavior_policy_prob`. -/
def mcBehaviorProb (A : MCAgent) (s : GWPos) (a : GWAction) : ℚ :=
  let A2 := mcInitState A s
  let n : ℚ := (gwActions.length : ℚ)
  if a = piGet A2.pi s then 1 - A2.epsilon + A2.epsilon / n else A2.epsilon / n

/-- The body of one iteration of the backward loop in
`MonteCarloAgent.update`, given the already-advanced return `G` and the
current weight `W`: accumulate `W` into `C[s][a]`, update `Q[s][a]` by the
weighted incremental mean using the post-increment `C[s][a]`, then make
`pi[s]` greedy for the updated row. -/
def mcStepBody (A : MCAgent) (s : GWPos) (a : GWAction) (G W : ℚ) : MCAgent :=
  let A1 := mcInitState A s
  let A2 := { A1 with C := tblSet A1.C s a (tblGet A1.C s a + W) }
  let q := tblGet A2.Q s a
  let A3 := { A2 with Q := tblSet A2.Q s a (q + (W / tblGet A2.C s a) * (G - q)) }
  { A3 with pi := aset A3.pi s (rowArgmax A3.Q s) }

/-- The backward loop of `MonteCarloAgent.update` over the reversed episode:
advance `G`, run the step body, stop if the taken action differs from the
freshly updated greedy action, otherwise divide `W` by the behavior-policy
probability and continue. -/
def mcUpdateGo : MCAgent → List (GWPos × GWAction × ℚ) → ℚ → ℚ → MCAgent
  | A, [], _, _ => A
  | A, (s, a, r) :: rest, G, W =>
    let G2 := A.gamma * G + r
    let A2 := mcStepBody A s a G2 W
    if a = piGet A2.pi s then mcUpdateGo A2 rest G2 (W / mcBehaviorProb A2 s a)
    else A2

/-- `MonteCarloAgent.update`: backward pass with `G = 0`, `W = 1`. -/
def mcUpdate (A : MCAgent) (episode : List (GWPos × GWAction × ℚ)) : MCAgent :=
  mcUpdateGo A episode.reverse 0 1

/-- Position (0-based, in processing order over the reversed episode) at
which the early-termination `break` fires, if it does. -/
def mcStopRev : MCAgent → List (GWPos × GWAction × ℚ) → ℚ → ℚ → Option ℕ
  | _, [], _, _ => none
  | A, (s, a, r) :: rest, G, W =>
    let G2 := A.gamma * G + r
    let A2 := mcStepBody A s a G2 W
    if a = piGet A2.pi s then
      (mcStopRev A2 rest G2 (W / mcBehaviorProb A2 s a)).map (fun j => j + 1)
    else some 0

/-- Episode index at which the early-termination `break` of
`MonteCarloAgent.update` fires, if it does. -/
def mcStopIndex (A : MCAgent) (episode : List (GWPos × GWAction × ℚ)) : Option ℕ :=
  (mcStopRev A episode.reverse 0 1).map (fun j => episode.length - 1 - j)

/-- The sequence of divisors `C[s][a]` read by the `W / C[s][a]` step-size
computation along the backward pass. -/
def mcDivisors : MCAgent → List (GWPos × GWAction × ℚ) → ℚ → ℚ → List ℚ
  | _, [], _, _ => []
  | A, (s, a, r) :: rest, G, W =>
    let G2 := A.gamma * G + r
    let A2 := mcStepBody A s a G2 W
    let d := tblGet A2.C s a
    if a = piGet A2.pi s then d :: mcDivisors A2 rest G2 (W / mcBehaviorProb A2 s a)
    else [d]

/-! ## Double Q-learning agent (double-q-learning.py) -/

structure DQAgent where
  alpha : ℚ
  gamma : ℚ
  epsilon : ℚ
  Q1 : QTable
  Q2 : QTable

/-- `DoubleQLearningAgent.__init__`: empty tables, no validation. -/
def mkDoubleQLearningAgent (alpha gamma epsilon : ℚ) : Except String DQAgent :=
  .ok ⟨alpha, gamma, epsilon, [], []⟩

/-- `DoubleQLearningAgent.initialize_state`: populate both `Q1` and `Q2`
with all-zero rows on a first visit. -/
def dqInitState (A : DQAgent) (s : GWPos) : DQAgent :=
  if acontains A.Q1 s then A
  else { A with Q1 := A.Q1 ++ [(s, zeroRow)], Q2 := A.Q2 ++ [(s, zeroRow)] }

/-- `DoubleQLearningAgent.double_q_update`, with the `random.random() < 0.5`
coin flip made an explicit boolean argument. -/
def dqUpdate (A : DQAgent) (coin : Bool) (s : GWPos) (a : GWAction) (r : ℚ)
    (s' : GWPos) : DQAgent :=
  let B := dqInitState A s'
  if coin then
    let best := rowArgmax B.Q1 s'
    let est := tblGet B.Q2 s' best
    let target := r + B.gamma * est
    { B with Q1 := tblSet B.Q1 s a (tblGet B.Q1 s a + B.alpha * (target - tblGet B.Q1 s a)) }
  else
    let best := rowArgmax B.Q2 s'
    let est := tblGet B.Q1 s' best
    let target := r + B.gamma * est
    { B with Q2 := tblSet B.Q2 s a (tblGet B.Q2 s a + B.alpha * (target - tblGet B.Q2 s a)) }

/-- The combined row `{a: Q1[s][a] + Q2[s][a] for a in self.actions}`. -/
def dqSumRow (A : DQAgent) (s : GWPos) : QRow :=
  gwActions.map (fun a => (a, tblGet A.Q1 s a + tblGet A.Q2 s a))

/-- `DoubleQLearningAgent.get_policy`: for every state key of `Q1`, the
greedy action of the combined `Q1 + Q2` row. -/
def dqGetPolicy (A : DQAgent) : List (GWPos × GWAction) :=
  A.Q1.map (fun p => (p.1, (argmaxRow (dqSumRow A p.1)).getD .north))

/-! ## Q-learning agent constructor (q-learning.py) -/

structure QLAgent where
  alpha : ℚ
  gamma : ℚ
  epsilon : ℚ
  Q : QTable

/-- `QLearningAgent.__init__`: stores the arguments unchanged; the body
performs no validation and cannot raise. -/
def mkQLearningAgent (alpha gamma epsilon : ℚ) : Except String QLAgent :=
  .ok ⟨alpha, gamma, epsilon, []⟩

/-! ## Well-formedness: rows are never partial, tables grow in lockstep -/

/-- A row holding every one of the four actions, in declaration order —
exactly the shape `{a: ... for a in self.actions}` produces. -/
def fullRow (row : QRow) : Prop := row.map Prod.fst = gwActions

/-- The invariant of the Monte Carlo tables: every present row is full,
and `Q`, `C` and `pi` hold exactly the same state keys in the same order. -/
def mcWF (A : MCAgent) : Prop :=
  (∀ p ∈ A.Q, fullRow p.2) ∧ (∀ p ∈ A.C, fullRow p.2) ∧
    A.Q.map Prod.fst = A.C.map Prod.fst ∧ A.Q.map Prod.fst = A.pi.map Prod.fst

/-- The invariant of the Double Q-learning tables: every present row is
full and `Q1`, `Q2` hold exactly the same state keys. -/
def dqWF (A : DQAgent) : Prop :=
  (∀ p ∈ A.Q1, fullRow p.2) ∧ (∀ p ∈ A.Q2, fullRow p.2) ∧
    A.Q1.map Prod.fst = A.Q2.map Prod.fst

theorem fullRow_zeroRow : fullRow zeroRow := by
  unfold fullRow zeroRow gwActions
  rfl

theorem fullRow_shape (row : QRow) (h : fullRow row) :
    ∃ v1 v2 v3 v4, row = [(.north, v1), (.south, v2), (.west, v3), (.east, v4)] := by
  unfold fullRow gwActions at h
  rcases row with _ | ⟨⟨a1, v1⟩, _ | ⟨⟨a2, v2⟩, _ | ⟨⟨a3, v3⟩, _ | ⟨⟨a4, v4⟩, rest⟩⟩⟩⟩ <;>
    simp at h
  obtain ⟨h1, h2, h3, h4, h5⟩ := h
  subst h1; subst h2; subst h3; subst h4; subst h5
  exact ⟨v1, v2, v3, v4, rfl⟩

theorem alookup_isSome_of_fullRow (row : QRow) (h : fullRow row) (a : GWAction) :
    (alookup row a).isSome := by
  obtain ⟨v1, v2, v3, v4, rfl⟩ := fullRow_shape row h
  cases a <;> simp [alookup]

theorem fullRow_aset (row : QRow) (h : fullRow row) (a : GWAction) (v : ℚ) :
    fullRow (aset row a v) := by
  unfold fullRow
  rw [keys_aset_mem row a v (alookup_isSome_of_fullRow row h a)]
  exact h

theorem rowGet_zeroRow (b : GWAction) : rowGet zeroRow b = 0 := by
  cases b <;> rfl

/-- The greedy action returned by the source's `max(row, key=row.get)`
attains the row's maximal value, for a full row. -/
theorem rowGet_le_argmax (row : QRow) (h : fullRow row) (b : GWAction) :
    rowGet row b ≤ rowGet row ((argmaxRow row).getD .north) := by
  obtain ⟨v1, v2, v3, v4, rfl⟩ := fullRow_shape row h
  cases b <;>
    simp only [argmaxRow, argmaxAux, rowGet, alookup, Option.getD_some] <;>
    split_ifs <;>
    simp_all [alookup, rowGet] <;>
    linarith

theorem tblGet_append_zeroRow (T : QTable) (s' t : GWPos) (b : GWAction) :
    tblGet (T ++ [(s', zeroRow)]) t b = tblGet T t b := by
  unfold tblGet
  cases h : alookup T t with
  | some row => rw [alookup_append_left T _ t (by simp [h]), h]
  | none =>
    rw [alookup_append_right T _ t h]
    by_cases ht : t = s' <;> cases b <;>
      simp [alookup, ht, rowGet, zeroRow, gwActions]

theorem acontains_append (T : QTable) (X : QTable) (s : GWPos)
    (h : acontains T s = true) : acontains (T ++ X) s = true := by
  unfold acontains at h ⊢
  rw [alookup_append_left T X s h]
  exact h

/-! ## Claims about GridworldWithObstacles.step (C7, C10) -/

/-- Any step whose `done` flag is false returns a reward strictly below the
goal reward 10 (it is either `-1/10` or `-1/10 - 2`). -/
theorem gwStep_reward_lt_ten (p : GWPos) (a : Option GWAction)
    (h : (gwStep p a).2.2 = false) : (gwStep p a).2.1 < 10 := by
  unfold gwStep at h ⊢
  by_cases hv : gwValid (gwNextPos p a) <;> simp [hv] at h ⊢ <;>
    simp [h] <;> norm_num

/-- C7 counterexample: at the goal `(9, 9)` the EAST target cell is out of
bounds, yet the returned reward is `8`, which is not strictly lower than
the valid non-goal move reward `-1/10` — the claim fails for a call made
while the agent already stands on the goal. -/
theorem c7_invalid_move_at_goal_counterexample :
    gwStep (9, 9) (some .east) = ((9, 9), 8, true) ∧ ¬ ((8 : ℚ) < -1/10) := by
  constructor
  · norm_num [gwStep, gwNextPos, gwValid, gwGoal, gwObstacles, gwHeight, gwWidth]
  · norm_num

/-- C7 (amended with the current position not being the goal): an
out-of-bounds or obstructed target leaves the position unchanged and
returns the penalized reward `-1/10 - 2`, strictly below the valid
non-goal reward `-1/10`; a valid move onto the goal sets `done` and
returns `10`, strictly above every non-goal step's reward; a valid move
elsewhere leaves `done` false. -/
theorem c7_step_invalid_and_goal (pos : GWPos) (a : GWAction)
    (hpos : pos ≠ gwGoal) :
    (gwValid (gwNextPos pos (some a)) = false →
      (gwStep pos (some a)).1 = pos ∧
      (gwStep pos (some a)).2.1 = -1/10 - 2 ∧
      (gwStep pos (some a)).2.1 < -1/10) ∧
    (gwValid (gwNextPos pos (some a)) = true →
      gwNextPos pos (some a) = gwGoal →
      (gwStep pos (some a)).2.2 = true ∧
      (gwStep pos (some a)).2.1 = 10 ∧
      ∀ (p2 : GWPos) (a2 : Option GWAction),
        (gwStep p2 a2).2.2 = false → (gwStep p2 a2).2.1 < 10) ∧
    (gwValid (gwNextPos pos (some a)) = true →
      gwNextPos pos (some a) ≠ gwGoal →
      (gwStep pos (some a)).2.2 = false) := by
  refine ⟨?_, ?_, ?_⟩
  · intro hv
    unfold gwStep
    simp only [hv]
    simp [hpos]
  · intro hv hgoal
    refine ⟨?_, ?_, fun p2 a2 h2 => gwStep_reward_lt_ten p2 a2 h2⟩ <;>
      · unfold gwStep
        rw [hgoal] at hv ⊢
        simp [hv]
  · intro hv hgoal
    unfold gwStep
    simp [hv, hgoal]

/-- C7 witness: instantiated at the corner `(0, 0)` (not the goal) with the
WEST action, whose target cell is out of bounds. -/
theorem c7_step_invalid_and_goal_witness :
    ((0, 0) : GWPos) ≠ gwGoal ∧
    ((gwValid (gwNextPos ((0, 0) : GWPos) (some .west)) = false →
      (gwStep ((0, 0) : GWPos) (some .west)).1 = ((0, 0) : GWPos) ∧
      (gwStep ((0, 0) : GWPos) (some .west)).2.1 = -1/10 - 2 ∧
      (gwStep ((0, 0) : GWPos) (some .west)).2.1 < -1/10) ∧
    (gwValid (gwNextPos ((0, 0) : GWPos) (some .west)) = true →
      gwNextPos ((0, 0) : GWPos) (some .west) = gwGoal →
      (gwStep ((0, 0) : GWPos) (some .west)).2.2 = true ∧
      (gwStep ((0, 0) : GWPos) (some .west)).2.1 = 10 ∧
      ∀ (p2 : GWPos) (a2 : Option GWAction),
        (gwStep p2 a2).2.2 = false → (gwStep p2 a2).2.1 < 10) ∧
    (gwValid (gwNextPos ((0, 0) : GWPos) (some .west)) = true →
      gwNextPos ((0, 0) : GWPos) (some .west) ≠ gwGoal →
      (gwStep ((0, 0) : GWPos) (some .west)).2.2 = false)) :=
  ⟨by decide, c7_step_invalid_and_goal (0, 0) .west (by decide)⟩

/-- C10 counterexample: a non-member action input (e.g. `None`) while the
agent stands on the in-bounds, unobstructed goal cell returns reward `10`
and `done = true`, not the claimed ordinary reward `-1/10` with
`done` reflecting the position — the reward clause fails. -/
theorem c10_nonmember_at_goal_counterexample :
    gwStep (9, 9) none = ((9, 9), 10, true) ∧ ((10 : ℚ) ≠ -1/10) := by
  constructor
  · norm_num [gwStep, gwNextPos, gwValid, gwGoal, gwObstacles, gwHeight, gwWidth]
  · norm_num

/-- C10 (amended: the ordinary reward `-1/10` applies off the goal, and the
goal reward `10` on it): for any input that is not one of the four enum
members, with the current position in bounds and unobstructed, `step`
treats the stay-in-place move as valid — position unchanged, no
invalid-move penalty, `done` iff the position is the goal, reward `10`
when done and `-1/10` otherwise, and no error is raised. -/
theorem c10_nonmember_action_step (pos : GWPos) (hb : gwValid pos = true) :
    (gwStep pos none).1 = pos ∧
    (gwStep pos none).2.1 = (if pos = gwGoal then (10 : ℚ) else -1/10) ∧
    ((gwStep pos none).2.2 = true ↔ pos = gwGoal) := by
  unfold gwStep
  have hnp : gwNextPos pos none = pos := rfl
  rw [hnp]
  by_cases hg : pos = gwGoal
  · subst hg
    simp [hb]
  · simp [hb, hg]

/-- C10 witness at the free interior cell `(3, 4)`. -/
theorem c10_nonmember_action_step_witness :
    gwValid ((3, 4) : GWPos) = true ∧
    ((gwStep ((3, 4) : GWPos) none).1 = ((3, 4) : GWPos) ∧
    (gwStep ((3, 4) : GWPos) none).2.1 =
      (if ((3, 4) : GWPos) = gwGoal then (10 : ℚ) else -1/10) ∧
    ((gwStep ((3, 4) : GWPos) none).2.2 = true ↔ ((3, 4) : GWPos) = gwGoal)) :=
  ⟨by decide, c10_nonmember_action_step (3, 4) (by decide)⟩

/-! ## Claim about constructor validation (C9) -/

/-- C9 counterexample: a discount of `2` lies outside `[0, 1)` and a
negative learning rate is malformed, yet all three constructors return a
learner holding exactly these values — no construction-time validation
failure occurs. -/
theorem c9_no_failfast_counterexample :
    mkQLearningAgent (1/10) 2 (1/10) = .ok ⟨1/10, 2, 1/10, []⟩ ∧
    ¬ ((0 : ℚ) ≤ 2 ∧ (2 : ℚ) < 1) ∧
    mkMonteCarloAgent 2 (1/10) = .ok ⟨2, 1/10, [], [], []⟩ ∧
    mkDoubleQLearningAgent (-1) (9/10) (1/10) = .ok ⟨-1, 9/10, 1/10, [], []⟩ := by
  refine ⟨rfl, ?_, rfl, rfl⟩
  norm_num

/-- C9 (amended): the constructors perform no validation at all — for every
configuration, malformed or not, construction succeeds and stores the
given `alpha`, `gamma`, `epsilon` unchanged. -/
theorem c9_constructors_accept_everything (alpha gamma epsilon : ℚ) :
    (∃ A : QLAgent, mkQLearningAgent alpha gamma epsilon = .ok A ∧
      A.alpha = alpha ∧ A.gamma = gamma ∧ A.epsilon = epsilon) ∧
    (∃ B : MCAgent, mkMonteCarloAgent gamma epsilon = .ok B ∧
      B.gamma = gamma ∧ B.epsilon = epsilon) ∧
    (∃ D : DQAgent, mkDoubleQLearningAgent alpha gamma epsilon = .ok D ∧
      D.alpha = alpha ∧ D.gamma = gamma ∧ D.epsilon = epsilon) :=
  ⟨⟨⟨alpha, gamma, epsilon, []⟩, rfl, rfl, rfl, rfl⟩,
   ⟨⟨gamma, epsilon, [], [], []⟩, rfl, rfl, rfl⟩,
   ⟨⟨alpha, gamma, epsilon, [], []⟩, rfl, rfl, rfl, rfl⟩⟩

/-! ## Claim about the DP transition model (C4) -/

/-- C4 (code bug): for every state and action the transition list is the
singleton `[(next_state, 0.25, reward)]`, so its probabilities sum to
`1/4`, not `1` as both the spec and the code's own reference to
`p(s', r | s, a)` require. -/
theorem c4_transition_probs_sum_quarter (s : DPState) (a : GWAction) :
    ((dpTransitionModel s a).map (fun e => e.2.1)).sum = 1/4 ∧
    ((1 : ℚ)/4 ≠ 1) := by
  constructor
  · simp [dpTransitionModel]
  · norm_num

/-! ## Helper lemmas on tables -/

theorem alookup_mem {α β : Type} [DecidableEq α]
    (l : List (α × β)) (k : α) (v : β) (h : alookup l k = some v) : (k, v) ∈ l := by
  induction l with
  | nil => simp [alookup] at h
  | cons p rest ih =>
    obtain ⟨k', v'⟩ := p
    by_cases hk : k = k' <;> simp [alookup, hk] at h
    · simp [hk, h]
    · exact List.mem_cons_of_mem _ (ih h)

theorem alookup_isSome_iff_mem_keys {α β : Type} [DecidableEq α]
    (l : List (α × β)) (k : α) :
    (alookup l k).isSome = true ↔ k ∈ l.map Prod.fst := by
  induction l with
  | nil => simp [alookup]
  | cons p rest ih =>
    obtain ⟨k', v'⟩ := p
    by_cases hk : k = k' <;> simp [alookup, hk, ih]

theorem acontains_of_keys_eq {β γ : Type}
    (l1 : List (GWPos × β)) (l2 : List (GWPos × γ)) (k : GWPos)
    (h : l1.map Prod.fst = l2.map Prod.fst) : acontains l1 k = acontains l2 k := by
  unfold acontains
  have h1 := alookup_isSome_iff_mem_keys l1 k
  have h2 := alookup_isSome_iff_mem_keys l2 k
  rw [h] at h1
  by_cases hm : k ∈ l2.map Prod.fst
  · rw [h1.mpr hm, h2.mpr hm]
  · have n1 : (alookup l1 k).isSome = false :=
      Bool.not_eq_true _ |>.mp (fun ht => hm (h1.mp ht))
    have n2 : (alookup l2 k).isSome = false :=
      Bool.not_eq_true _ |>.mp (fun ht => hm (h2.mp ht))
    rw [n1, n2]

theorem tblGet_tblSet_self (T : QTable) (s : GWPos) (a : GWAction) (v : ℚ)
    (hs : acontains T s = true) : tblGet (tblSet T s a v) s a = v := by
  unfold acontains at hs
  cases hrow : alookup T s with
  | none => rw [hrow] at hs; cases hs
  | some row =>
    unfold tblGet tblSet
    rw [alookup_amodify_self, hrow]
    simp [rowGet, alookup_aset_self]

theorem tblGet_tblSet_ne (T : QTable) (s t : GWPos) (a b : GWAction) (v : ℚ)
    (h : ¬ (t = s ∧ b = a)) : tblGet (tblSet T s a v) t b = tblGet T t b := by
  unfold tblGet tblSet
  by_cases hts : t = s
  · subst hts
    have hba : b ≠ a := fun hb => h ⟨rfl, hb⟩
    rw [alookup_amodify_self]
    cases hrow : alookup T t <;> simp [rowGet, alookup_aset_ne _ _ _ _ hba]
  · rw [alookup_amodify_ne _ _ _ _ hts]

/-! ## Double Q-learning claim (C5) -/

theorem dqInitState_alpha (A : DQAgent) (s : GWPos) :
    (dqInitState A s).alpha = A.alpha ∧ (dqInitState A s).gamma = A.gamma := by
  unfold dqInitState
  by_cases h : acontains A.Q1 s <;> simp [h]

theorem dqInitState_contains_Q1 (A : DQAgent) (s : GWPos) :
    acontains (dqInitState A s).Q1 s = true := by
  unfold dqInitState
  by_cases h : acontains A.Q1 s <;> simp [h]
  unfold acontains at h ⊢
  rw [alookup_append_right _ _ _ (by simpa using h)]
  simp [alookup]

theorem dqInitState_contains_Q1_mono (A : DQAgent) (s t : GWPos)
    (h : acontains A.Q1 t = true) : acontains (dqInitState A s).Q1 t = true := by
  unfold dqInitState
  by_cases hc : acontains A.Q1 s <;> simp [hc, h]
  exact acontains_append _ _ _ h

theorem dqInitState_wf (A : DQAgent) (s : GWPos) (h : dqWF A) :
    dqWF (dqInitState A s) := by
  obtain ⟨h1, h2, h3⟩ := h
  unfold dqInitState
  by_cases hc : acontains A.Q1 s <;> simp [hc]
  · exact ⟨h1, h2, h3⟩
  · refine ⟨?_, ?_, ?_⟩
    · intro p hp
      rcases List.mem_append.mp hp with hp | hp
      · exact h1 p hp
      · simp at hp; rw [hp]; exact fullRow_zeroRow
    · intro p hp
      rcases List.mem_append.mp hp with hp | hp
      · exact h2 p hp
      · simp at hp; rw [hp]; exact fullRow_zeroRow
    · simp [h3]

theorem dqInitState_Q2_get (A : DQAgent) (s' t : GWPos) (b : GWAction) :
    tblGet (dqInitState A s').Q2 t b = tblGet A.Q2 t b := by
  unfold dqInitState
  by_cases hc : acontains A.Q1 s' <;> simp [hc]
  exact tblGet_append_zeroRow _ _ _ _

theorem dqInitState_Q1_get (A : DQAgent) (s' t : GWPos) (b : GWAction) :
    tblGet (dqInitState A s').Q1 t b = tblGet A.Q1 t b := by
  unfold dqInitState
  by_cases hc : acontains A.Q1 s' <;> simp [hc]
  exact tblGet_append_zeroRow _ _ _ _

/-- The row found in a well-formed table at a contained key is full, and
the source's greedy selection attains its maximal value. -/
theorem tblGet_le_rowArgmax (T : QTable) (s : GWPos)
    (hfull : ∀ p ∈ T, fullRow p.2) (hs : acontains T s = true) (b : GWAction) :
    tblGet T s b ≤ tblGet T s (rowArgmax T s) := by
  unfold acontains at hs
  cases hrow : alookup T s with
  | none => rw [hrow] at hs; cases hs
  | some row =>
    have hrfull : fullRow row := hfull (s, row) (alookup_mem _ _ _ hrow)
    unfold tblGet rowArgmax
    rw [hrow]
    simpa using rowGet_le_argmax row hrfull b

/-- The statement of claim C5 at one transition: on heads `Q1(s,a)` moves
by step `alpha` toward `r + gamma * Q2(s', best1)` where `best1` is the
greedy action of `Q1` at `s'` (and it attains the maximal `Q1(s',·)`
value), while all `Q2` values are unchanged; on tails symmetrically; and
`get_policy` maps every state key to the greedy action of `Q1 + Q2`. -/
def dqClaim (A : DQAgent) (s : GWPos) (a : GWAction) (r : ℚ) (s' : GWPos) : Prop :=
  (tblGet (dqUpdate A true s a r s').Q1 s a =
    tblGet (dqInitState A s').Q1 s a +
      A.alpha * ((r + A.gamma *
          tblGet (dqInitState A s').Q2 s' (rowArgmax (dqInitState A s').Q1 s')) -
        tblGet (dqInitState A s').Q1 s a)) ∧
  (∀ b, tblGet (dqInitState A s').Q1 s' b ≤
    tblGet (dqInitState A s').Q1 s' (rowArgmax (dqInitState A s').Q1 s')) ∧
  (∀ t b, tblGet (dqUpdate A true s a r s').Q2 t b = tblGet A.Q2 t b) ∧
  (tblGet (dqUpdate A false s a r s').Q2 s a =
    tblGet (dqInitState A s').Q2 s a +
      A.alpha * ((r + A.gamma *
          tblGet (dqInitState A s').Q1 s' (rowArgmax (dqInitState A s').Q2 s')) -
        tblGet (dqInitState A s').Q2 s a)) ∧
  (∀ b, tblGet (dqInitState A s').Q2 s' b ≤
    tblGet (dqInitState A s').Q2 s' (rowArgmax (dqInitState A s').Q2 s')) ∧
  (∀ t b, tblGet (dqUpdate A false s a r s').Q1 t b = tblGet A.Q1 t b) ∧
  (∀ t, acontains A.Q1 t = true →
    alookup (dqGetPolicy A) t = some ((argmaxRow (dqSumRow A t)).getD .north) ∧
    ∀ b, rowGet (dqSumRow A t) b ≤
      rowGet (dqSumRow A t) ((argmaxRow (dqSumRow A t)).getD .north))

theorem alookup_map_fst_fun (l : QTable) (f : GWPos → GWAction) (t : GWPos)
    (h : acontains l t = true) :
    alookup (l.map (fun p => (p.1, f p.1))) t = some (f t) := by
  induction l with
  | nil => simp [acontains, alookup] at h
  | cons p rest ih =>
    obtain ⟨k, v⟩ := p
    by_cases hk : t = k
    · subst hk; simp [alookup]
    · simp [alookup, hk]
      exact ih (by simpa [acontains, alookup, hk] using h)

theorem fullRow_dqSumRow (A : DQAgent) (t : GWPos) : fullRow (dqSumRow A t) := by
  unfold fullRow dqSumRow
  rw [List.map_map]
  rfl

/-- C5: on heads the transition `(s, a, r, s')` moves `Q1(s,a)` by step
`alpha` toward `r + gamma * Q2(s', best1)` with `best1` the greedy (and
maximal) action of `Q1` at `s'` while every `Q2` value is unchanged; on
tails symmetrically with the roles of `Q1` and `Q2` swapped; and
`get_policy` maps every seen state to the greedy action of the combined
row `Q1 + Q2`. -/
theorem c5_double_q_update (A : DQAgent) (s : GWPos) (a : GWAction) (r : ℚ)
    (s' : GWPos) (hwf : dqWF A) (hs : acontains A.Q1 s = true) :
    dqClaim A s a r s' := by
  have hB := dqInitState_wf A s' hwf
  have hal := (dqInitState_alpha A s').1
  have hga := (dqInitState_alpha A s').2
  have hs1 : acontains (dqInitState A s').Q1 s = true :=
    dqInitState_contains_Q1_mono A s' s hs
  have hs2 : acontains (dqInitState A s').Q2 s = true := by
    rw [← acontains_of_keys_eq _ _ s hB.2.2]
    exact hs1
  have hc1 : acontains (dqInitState A s').Q1 s' = true :=
    dqInitState_contains_Q1 A s'
  have hc2 : acontains (dqInitState A s').Q2 s' = true := by
    rw [← acontains_of_keys_eq _ _ s' hB.2.2]
    exact hc1
  unfold dqClaim
  refine ⟨?_, ?_, ?_, ?_, ?_, ?_, ?_⟩
  · unfold dqUpdate
    simp only [if_true]
    rw [tblGet_tblSet_self _ _ _ _ hs1, hal, hga]
  · intro b
    exact tblGet_le_rowArgmax _ _ hB.1 hc1 b
  · intro t b
    unfold dqUpdate
    simp only [if_true]
    exact dqInitState_Q2_get A s' t b
  · unfold dqUpdate
    simp only [Bool.false_eq_true, if_false]
    rw [tblGet_tblSet_self _ _ _ _ hs2, hal, hga]
  · intro b
    exact tblGet_le_rowArgmax _ _ hB.2.1 hc2 b
  · intro t b
    unfold dqUpdate
    simp only [Bool.false_eq_true, if_false]
    exact dqInitState_Q1_get A s' t b
  · intro t ht
    unfold dqGetPolicy
    refine ⟨alookup_map_fst_fun A.Q1
      (fun x => (argmaxRow (dqSumRow A x)).getD .north) t ht, fun b => ?_⟩
    exact rowGet_le_argmax (dqSumRow A t) (fullRow_dqSumRow A t) b

def c5WitnessAgent : DQAgent :=
  ⟨1/10, 9/10, 1/10, [((0, 0), zeroRow)], [((0, 0), zeroRow)]⟩

/-- C5 witness: the update claim instantiated at a one-state agent with a
transition from `(0, 0)` to `(0, 1)`. -/
theorem c5_double_q_update_witness :
    dqWF c5WitnessAgent ∧ acontains c5WitnessAgent.Q1 (0, 0) = true ∧
    dqClaim c5WitnessAgent (0, 0) .south 5 (0, 1) := by
  have hwf : dqWF c5WitnessAgent := by
    unfold dqWF fullRow c5WitnessAgent
    decide
  exact ⟨hwf, by decide, c5_double_q_update _ _ _ _ _ hwf (by decide)⟩

/-! ## Table well-formedness preservation (C8) -/

theorem keys_tblSet (T : QTable) (s : GWPos) (a : GWAction) (v : ℚ) :
    (tblSet T s a v).map Prod.fst = T.map Prod.fst :=
  keys_amodify T s _

theorem rows_tblSet (T : QTable) (s : GWPos) (a : GWAction) (v : ℚ)
    (hrows : ∀ p ∈ T, fullRow p.2) : ∀ p ∈ tblSet T s a v, fullRow p.2 := by
  intro p hp
  rcases mem_amodify T s _ p hp with h | ⟨row, hrow, hpeq⟩
  · exact hrows p h
  · rw [hpeq]
    exact fullRow_aset row (hrows (s, row) hrow) a v

theorem mcInitState_contains_Q (A : MCAgent) (s : GWPos) :
    acontains (mcInitState A s).Q s = true := by
  unfold mcInitState
  by_cases h : acontains A.Q s <;> simp [h]
  unfold acontains at h ⊢
  rw [alookup_append_right _ _ _ (by simpa using h)]
  simp [alookup]

theorem mcInitState_contains_Q_mono (A : MCAgent) (s t : GWPos)
    (h : acontains A.Q t = true) : acontains (mcInitState A s).Q t = true := by
  unfold mcInitState
  by_cases hc : acontains A.Q s <;> simp [hc, h]
  exact acontains_append _ _ _ h

theorem mcInitState_wf (A : MCAgent) (s : GWPos) (h : mcWF A) :
    mcWF (mcInitState A s) := by
  obtain ⟨h1, h2, h3, h4⟩ := h
  unfold mcInitState
  by_cases hc : acontains A.Q s <;> simp [hc]
  · exact ⟨h1, h2, h3, h4⟩
  · refine ⟨?_, ?_, ?_, ?_⟩
    · intro p hp
      rcases List.mem_append.mp hp with hp | hp
      · exact h1 p hp
      · simp at hp; rw [hp]; exact fullRow_zeroRow
    · intro p hp
      rcases List.mem_append.mp hp with hp | hp
      · exact h2 p hp
      · simp at hp; rw [hp]; exact fullRow_zeroRow
    · simp [h3]
    · simp [h4]

theorem mcStepBody_wf (A : MCAgent) (s : GWPos) (a : GWAction) (G W : ℚ)
    (h : mcWF A) : mcWF (mcStepBody A s a G W) := by
  have h1 := mcInitState_wf A s h
  have hcq := mcInitState_contains_Q A s
  obtain ⟨hq, hc, hqc, hqpi⟩ := h1
  unfold mcStepBody
  refine ⟨?_, ?_, ?_, ?_⟩
  · exact rows_tblSet _ s a _ hq
  · exact rows_tblSet _ s a _ hc
  · rw [keys_tblSet, keys_tblSet]
    exact hqc
  · rw [keys_tblSet]
    rw [keys_aset_mem]
    · exact hqpi
    · rw [alookup_isSome_iff_mem_keys, ← hqpi, ← alookup_isSome_iff_mem_keys]
      simpa [acontains] using hcq

theorem mcUpdateGo_wf (steps : List (GWPos × GWAction × ℚ)) :
    ∀ (A : MCAgent) (G W : ℚ), mcWF A → mcWF (mcUpdateGo A steps G W) := by
  induction steps with
  | nil => intro A G W h; simpa [mcUpdateGo] using h
  | cons p rest ih =>
    intro A G W h
    obtain ⟨s, a, r⟩ := p
    have hbody := mcStepBody_wf A s a (A.gamma * G + r) W h
    unfold mcUpdateGo
    dsimp only
    by_cases hbr : a = piGet (mcStepBody A s a (A.gamma * G + r) W).pi s
    · rw [if_pos hbr]
      exact ih _ _ _ hbody
    · rw [if_neg hbr]
      exact hbody

theorem mcUpdate_wf (A : MCAgent) (episode : List (GWPos × GWAction × ℚ))
    (h : mcWF A) : mcWF (mcUpdate A episode) :=
  mcUpdateGo_wf episode.reverse A 0 1 h

theorem dqUpdate_wf (A : DQAgent) (coin : Bool) (s : GWPos) (a : GWAction)
    (r : ℚ) (s2 : GWPos) (h : dqWF A) : dqWF (dqUpdate A coin s a r s2) := by
  have h1 := dqInitState_wf A s2 h
  obtain ⟨hq1, hq2, hkeys⟩ := h1
  unfold dqUpdate
  cases coin <;> simp
  · exact ⟨hq1, rows_tblSet _ s a _ hq2, by rw [keys_tblSet]; exact hkeys⟩
  · exact ⟨rows_tblSet _ s a _ hq1, hq2, by rw [keys_tblSet]; exact hkeys⟩

theorem mcInitState_new_values (A : MCAgent) (s : GWPos) (a : GWAction)
    (hwf : mcWF A) (h : acontains A.Q s = false) :
    tblLookup (mcInitState A s).Q s a = some 0 ∧
    tblLookup (mcInitState A s).C s a = some 0 ∧
    alookup (mcInitState A s).pi s = some .north := by
  have hcn : acontains A.C s = false := by
    rw [← acontains_of_keys_eq A.Q A.C s hwf.2.2.1]; exact h
  have hpn : alookup A.pi s = none := by
    have hfalse : acontains A.pi s = false := by
      rw [← acontains_of_keys_eq A.Q A.pi s hwf.2.2.2]; exact h
    simpa [acontains, Option.isNone_iff_eq_none] using hfalse
  unfold mcInitState
  simp [h]
  have hq : alookup A.Q s = none := by
    simpa [acontains, Option.isNone_iff_eq_none] using h
  have hc : alookup A.C s = none := by
    simpa [acontains, Option.isNone_iff_eq_none] using hcn
  unfold tblLookup
  rw [alookup_append_right _ _ _ hq, alookup_append_right _ _ _ hc,
    alookup_append_right _ _ _ hpn]
  cases a <;> simp [alookup, zeroRow, gwActions]

theorem dqInitState_new_values (A : DQAgent) (s : GWPos) (a : GWAction)
    (hwf : dqWF A) (h : acontains A.Q1 s = false) :
    tblLookup (dqInitState A s).Q1 s a = some 0 ∧
    tblLookup (dqInitState A s).Q2 s a = some 0 := by
  have h2n : alookup A.Q2 s = none := by
    have hfalse : acontains A.Q2 s = false := by
      rw [← acontains_of_keys_eq A.Q1 A.Q2 s hwf.2.2]; exact h
    simpa [acontains, Option.isNone_iff_eq_none] using hfalse
  have h1n : alookup A.Q1 s = none := by
    simpa [acontains, Option.isNone_iff_eq_none] using h
  unfold dqInitState
  simp [h]
  unfold tblLookup
  rw [alookup_append_right _ _ _ h1n, alookup_append_right _ _ _ h2n]
  cases a <;> simp [alookup, zeroRow, gwActions]

/-- C8: the tables of every learner stay well-formed under every operation:
freshly constructed agents have (trivially aligned) empty tables; lazy
initialization creates a state either not at all or with all four actions
bound to `0.0` at once, never partially; the Monte Carlo tables `Q`, `C`
and `pi` always hold exactly the same state keys; the Double Q-learning
tables `Q1` and `Q2` always hold exactly the same state keys; and
`update`/`double_q_update` preserve all of this. -/
theorem c8_tables_never_partial :
    (∀ g e A, mkMonteCarloAgent g e = .ok A → mcWF A) ∧
    (∀ A s, mcWF A → mcWF (mcInitState A s)) ∧
    (∀ A s a, mcWF A → acontains A.Q s = false →
      tblLookup (mcInitState A s).Q s a = some 0 ∧
      tblLookup (mcInitState A s).C s a = some 0 ∧
      alookup (mcInitState A s).pi s = some .north) ∧
    (∀ A ep, mcWF A → mcWF (mcUpdate A ep)) ∧
    (∀ al g e A, mkDoubleQLearningAgent al g e = .ok A → dqWF A) ∧
    (∀ A s, dqWF A → dqWF (dqInitState A s)) ∧
    (∀ A s a, dqWF A → acontains A.Q1 s = false →
      tblLookup (dqInitState A s).Q1 s a = some 0 ∧
      tblLookup (dqInitState A s).Q2 s a = some 0) ∧
    (∀ A coin s a r s2, dqWF A → dqWF (dqUpdate A coin s a r s2)) := by
  refine ⟨?_, ?_, ?_, ?_, ?_, ?_, ?_, ?_⟩
  · intro g e A hA
    cases hA
    exact ⟨by simp, by simp, rfl, rfl⟩
  · intro A s h
    exact mcInitState_wf A s h
  · intro A s a h hn
    exact mcInitState_new_values A s a h hn
  · intro A ep h
    exact mcUpdate_wf A ep h
  · intro al g e A hA
    cases hA
    exact ⟨by simp, by simp, rfl⟩
  · intro A s h
    exact dqInitState_wf A s h
  · intro A s a h hn
    exact dqInitState_new_values A s a h hn
  · intro A coin s a r s2 h
    exact dqUpdate_wf A coin s a r s2 h

def c8McAgent : MCAgent := ⟨9/10, 1/10, [], [], []⟩

def c8DqAgent : DQAgent := ⟨1/10, 9/10, 1/10, [], []⟩

/-- C8 witness: the invariant holds after a Monte Carlo update of a
two-step episode from a fresh agent and after a Double Q-learning update
from a fresh agent. -/
theorem c8_tables_never_partial_witness :
    mcWF c8McAgent ∧
    mcWF (mcUpdate c8McAgent [((0, 0), .north, 1), ((0, 1), .south, -1)]) ∧
    dqWF c8DqAgent ∧
    dqWF (dqUpdate c8DqAgent true (0, 0) .south 5 (0, 1)) := by
  have h1 : mcWF c8McAgent := ⟨by simp [c8McAgent], by simp [c8McAgent], rfl, rfl⟩
  have h2 : dqWF c8DqAgent := ⟨by simp [c8DqAgent], by simp [c8DqAgent], rfl⟩
  exact ⟨h1, c8_tables_never_partial.2.2.2.1 c8McAgent _ h1, h2,
    c8_tables_never_partial.2.2.2.2.2.2.2 c8DqAgent true (0, 0) .south 5 (0, 1) h2⟩

/-! ## Monte Carlo per-step claim (C1) -/

theorem mcInitState_fields (A : MCAgent) (s : GWPos) :
    (mcInitState A s).gamma = A.gamma ∧ (mcInitState A s).epsilon = A.epsilon := by
  unfold mcInitState
  by_cases h : acontains A.Q s <;> simp [h]

theorem mcInitState_Q_get (A : MCAgent) (s' t : GWPos) (b : GWAction) :
    tblGet (mcInitState A s').Q t b = tblGet A.Q t b := by
  unfold mcInitState
  by_cases hc : acontains A.Q s' <;> simp [hc]
  exact tblGet_append_zeroRow _ _ _ _

theorem mcInitState_C_get (A : MCAgent) (s' t : GWPos) (b : GWAction) :
    tblGet (mcInitState A s').C t b = tblGet A.C t b := by
  unfold mcInitState
  by_cases hc : acontains A.Q s' <;> simp [hc]
  exact tblGet_append_zeroRow _ _ _ _

theorem mcInitState_contains_C (A : MCAgent) (s : GWPos) (hwf : mcWF A) :
    acontains (mcInitState A s).C s = true := by
  have hQ := mcInitState_contains_Q A s
  have hkeys := (mcInitState_wf A s hwf).2.2.1
  rw [← acontains_of_keys_eq _ _ s hkeys]
  exact hQ

theorem mcStepBody_fields (A : MCAgent) (s : GWPos) (a : GWAction) (G W : ℚ) :
    (mcStepBody A s a G W).gamma = A.gamma ∧
    (mcStepBody A s a G W).epsilon = A.epsilon := by
  unfold mcStepBody
  exact mcInitState_fields A s

theorem mcStepBody_contains_Q (A : MCAgent) (s : GWPos) (a : GWAction) (G W : ℚ) :
    acontains (mcStepBody A s a G W).Q s = true := by
  have h := mcInitState_contains_Q A s
  unfold mcStepBody
  rw [acontains_of_keys_eq _ (mcInitState A s).Q s (keys_tblSet _ _ _ _)]
  exact h

/-- `get_behavior_policy_prob` equals the spec's formula
`1 - eps + eps/|A|` on the greedy action and `eps/|A|` otherwise, once the
state is initialized (`|A| = 4`). -/
def specEpsilonSoftProb (A : MCAgent) (s : GWPos) (a : GWAction) : ℚ :=
  if a = piGet A.pi s then 1 - A.epsilon + A.epsilon / 4 else A.epsilon / 4

theorem mcBehaviorProb_eq_spec (A : MCAgent) (s : GWPos) (a : GWAction)
    (hc : acontains A.Q s = true) :
    mcBehaviorProb A s a = specEpsilonSoftProb A s a := by
  unfold mcBehaviorProb specEpsilonSoftProb mcInitState
  simp [hc]
  norm_num [gwActions]

/-- The statement of claim C1 at one processed step `(s, a, r)` with
accumulated return `G` and weight `W`: the step first sets
`G2 = gamma*G + r`, adds `W` to `C(s,a)`, then moves `Q(s,a)` by
`(W / C(s,a)) * (G2 - Q(s,a))` with the post-increment `C(s,a)`; the
freshly updated `pi[s]` attains the maximal updated `Q(s,·)`; and the loop
continues exactly when `a` is that greedy action, dividing `W` by the
`1 - eps + eps/|A|` / `eps/|A|` behavior probability of `a`. -/
def c1Claim (A : MCAgent) (s : GWPos) (a : GWAction) (r : ℚ)
    (rest : List (GWPos × GWAction × ℚ)) (G W : ℚ) : Prop :=
  tblGet (mcStepBody A s a (A.gamma * G + r) W).C s a = tblGet A.C s a + W ∧
  tblGet (mcStepBody A s a (A.gamma * G + r) W).Q s a =
    tblGet A.Q s a +
      (W / (tblGet A.C s a + W)) * ((A.gamma * G + r) - tblGet A.Q s a) ∧
  (∀ b, tblGet (mcStepBody A s a (A.gamma * G + r) W).Q s b ≤
    tblGet (mcStepBody A s a (A.gamma * G + r) W).Q s
      (piGet (mcStepBody A s a (A.gamma * G + r) W).pi s)) ∧
  mcUpdateGo A ((s, a, r) :: rest) G W =
    (if a = piGet (mcStepBody A s a (A.gamma * G + r) W).pi s then
      mcUpdateGo (mcStepBody A s a (A.gamma * G + r) W) rest (A.gamma * G + r)
        (W / specEpsilonSoftProb (mcStepBody A s a (A.gamma * G + r) W) s a)
    else mcStepBody A s a (A.gamma * G + r) W) ∧
  mcUpdate A ((s, a, r) :: rest).reverse =
    mcUpdateGo A ((s, a, r) :: rest) 0 1

/-- C1: each step of the backward pass of `MonteCarloAgent.update` performs
exactly the claimed `C`-then-`Q` weighted incremental-mean update and the
claimed `W / b(a|s)` weight adjustment when it continues, with `W`
starting at 1 and `G` accumulated as `gamma*G + reward`. -/
theorem c1_mc_step (A : MCAgent) (s : GWPos) (a : GWAction) (r : ℚ)
    (rest : List (GWPos × GWAction × ℚ)) (G W : ℚ) (hwf : mcWF A) :
    c1Claim A s a r rest G W := by
  have hwf1 := mcInitState_wf A s hwf
  have hcq := mcInitState_contains_Q A s
  have hcc := mcInitState_contains_C A s hwf
  have hbody := mcStepBody_wf A s a (A.gamma * G + r) W hwf
  have hbq := mcStepBody_contains_Q A s a (A.gamma * G + r) W
  refine ⟨?_, ?_, ?_, ?_, ?_⟩
  · unfold mcStepBody
    dsimp only
    rw [tblGet_tblSet_self _ _ _ _ hcc, mcInitState_C_get]
  · unfold mcStepBody
    dsimp only
    rw [tblGet_tblSet_self _ _ _ _ hcq,
      tblGet_tblSet_self _ _ _ _ hcc, mcInitState_C_get, mcInitState_Q_get]
  · intro b
    have hpi : piGet (mcStepBody A s a (A.gamma * G + r) W).pi s =
        rowArgmax (mcStepBody A s a (A.gamma * G + r) W).Q s := by
      unfold mcStepBody piGet
      dsimp only
      rw [alookup_aset_self]
      rfl
    rw [hpi]
    exact tblGet_le_rowArgmax _ s hbody.1 hbq b
  · have hgo : mcUpdateGo A ((s, a, r) :: rest) G W =
        (if a = piGet (mcStepBody A s a (A.gamma * G + r) W).pi s then
          mcUpdateGo (mcStepBody A s a (A.gamma * G + r) W) rest
            (A.gamma * G + r)
            (W / mcBehaviorProb (mcStepBody A s a (A.gamma * G + r) W) s a)
        else mcStepBody A s a (A.gamma * G + r) W) := rfl
    rw [hgo]
    by_cases hbr : a = piGet (mcStepBody A s a (A.gamma * G + r) W).pi s
    · rw [if_pos hbr, if_pos hbr, mcBehaviorProb_eq_spec _ _ _ hbq]
    · rw [if_neg hbr, if_neg hbr]
  · unfold mcUpdate
    rw [List.reverse_reverse]

def c1Agent : MCAgent := ⟨9/10, 1/10, [], [], []⟩

/-- C1 witness: the per-step claim at a fresh agent processing the single
step `((0,0), north, 1)` with `G = 0`, `W = 1`. -/
theorem c1_mc_step_witness :
    mcWF c1Agent ∧ c1Claim c1Agent (0, 0) .north 1 [] 0 1 := by
  have hwf : mcWF c1Agent := ⟨by simp [c1Agent], by simp [c1Agent], rfl, rfl⟩
  exact ⟨hwf, c1_mc_step c1Agent (0, 0) .north 1 [] 0 1 hwf⟩

/-! ## Monte Carlo divisor positivity (C6) -/

/-- Every value stored in the cumulative-weight table `C` is nonnegative. -/
def mcAllCNonneg (A : MCAgent) : Prop := ∀ p ∈ A.C, ∀ q ∈ p.2, 0 ≤ q.2

theorem tblGet_C_nonneg (A : MCAgent) (h : mcAllCNonneg A) (t : GWPos)
    (b : GWAction) : 0 ≤ tblGet A.C t b := by
  unfold tblGet rowGet
  cases h1 : alookup A.C t with
  | none => simp [alookup]
  | some row =>
    simp only [Option.getD_some]
    cases h2 : alookup row b with
    | none => simp
    | some v =>
      simpa using h (t, row) (alookup_mem _ _ _ h1) (b, v) (alookup_mem _ _ _ h2)

theorem zeroRow_nonneg (q : GWAction × ℚ) (hq : q ∈ zeroRow) : 0 ≤ q.2 := by
  unfold zeroRow at hq
  rcases List.mem_map.mp hq with ⟨b, _, hb⟩
  rw [← hb]

theorem mcAllCNonneg_init (A : MCAgent) (s : GWPos) (h : mcAllCNonneg A) :
    mcAllCNonneg (mcInitState A s) := by
  unfold mcInitState
  by_cases hc : acontains A.Q s <;> simp [hc]
  · exact h
  · intro p hp
    rcases List.mem_append.mp hp with hp | hp
    · exact h p hp
    · simp at hp
      rw [hp]
      exact fun q hq => zeroRow_nonneg q hq

theorem mcStepBody_C_get_self (A : MCAgent) (s : GWPos) (a : GWAction)
    (G W : ℚ) (hwf : mcWF A) :
    tblGet (mcStepBody A s a G W).C s a = tblGet A.C s a + W := by
  unfold mcStepBody
  dsimp only
  rw [tblGet_tblSet_self _ _ _ _ (mcInitState_contains_C A s hwf),
    mcInitState_C_get]

theorem mcAllCNonneg_body (A : MCAgent) (s : GWPos) (a : GWAction) (G W : ℚ)
    (h : mcAllCNonneg A) (hW : 0 ≤ W) : mcAllCNonneg (mcStepBody A s a G W) := by
  have hi := mcAllCNonneg_init A s h
  intro p hp
  have hC : (mcStepBody A s a G W).C =
      tblSet (mcInitState A s).C s a (tblGet (mcInitState A s).C s a + W) := rfl
  rw [hC] at hp
  rcases mem_amodify _ _ _ p hp with hold | ⟨row, hrow, hpeq⟩
  · exact hi p hold
  · rw [hpeq]
    intro q hq
    rcases mem_aset _ _ _ _ hq with hq' | hq'
    · exact hi (s, row) hrow q hq'
    · rw [hq']
      exact add_nonneg (tblGet_C_nonneg _ hi s a) hW

theorem mcDivisors_pos (steps : List (GWPos × GWAction × ℚ)) :
    ∀ (A : MCAgent) (G W : ℚ), mcWF A → mcAllCNonneg A →
    0 ≤ A.epsilon → A.epsilon ≤ 1 → 0 < W →
    ∀ d ∈ mcDivisors A steps G W, 0 < d := by
  induction steps with
  | nil => intro A G W _ _ _ _ _ d hd; simp [mcDivisors] at hd
  | cons p rest ih =>
    intro A G W hwf hC he0 he1 hW d hd
    obtain ⟨s, a, r⟩ := p
    have hd0 : tblGet (mcStepBody A s a (A.gamma * G + r) W).C s a =
        tblGet A.C s a + W := mcStepBody_C_get_self A s a _ W hwf
    have hd0pos : 0 < tblGet (mcStepBody A s a (A.gamma * G + r) W).C s a := by
      rw [hd0]
      exact add_pos_of_nonneg_of_pos (tblGet_C_nonneg A hC s a) hW
    have hdiv : mcDivisors A ((s, a, r) :: rest) G W =
        (if a = piGet (mcStepBody A s a (A.gamma * G + r) W).pi s then
          tblGet (mcStepBody A s a (A.gamma * G + r) W).C s a ::
            mcDivisors (mcStepBody A s a (A.gamma * G + r) W) rest
              (A.gamma * G + r)
              (W / mcBehaviorProb (mcStepBody A s a (A.gamma * G + r) W) s a)
        else [tblGet (mcStepBody A s a (A.gamma * G + r) W).C s a]) := rfl
    rw [hdiv] at hd
    by_cases hbr : a = piGet (mcStepBody A s a (A.gamma * G + r) W).pi s
    · rw [if_pos hbr] at hd
      rcases List.mem_cons.mp hd with hd | hd
      · rw [hd]; exact hd0pos
      · have heps := (mcStepBody_fields A s a (A.gamma * G + r) W).2
        have hprob : mcBehaviorProb (mcStepBody A s a (A.gamma * G + r) W) s a =
            1 - A.epsilon + A.epsilon / 4 := by
          rw [mcBehaviorProb_eq_spec _ _ _ (mcStepBody_contains_Q A s a _ W)]
          unfold specEpsilonSoftProb
          rw [if_pos hbr, heps]
        have hppos : 0 < mcBehaviorProb (mcStepBody A s a (A.gamma * G + r) W) s a := by
          rw [hprob]; linarith
        exact ih (mcStepBody A s a (A.gamma * G + r) W) (A.gamma * G + r) _
          (mcStepBody_wf A s a _ W hwf) (mcAllCNonneg_body A s a _ W hC hW.le)
          (by rw [heps]; exact he0) (by rw [heps]; exact he1)
          (div_pos hW hppos) d hd
    · rw [if_neg hbr] at hd
      rcases List.mem_cons.mp hd with hd | hd
      · rw [hd]; exact hd0pos
      · simp at hd

/-- C6: along the whole backward pass of `update` (started at `W = 1`,
`G = 0`), every divisor `C(s,a)` read by the `W / C(s,a)` step-size
computation is strictly positive — `W` was added to `C(s,a)` in the same
step before the read, `W` stays positive because it is only divided by
behavior probabilities in `(0, 1]`, and the stored `C` values stay
nonnegative; in particular no division by zero occurs, including on a
state/action pair's first visit. -/
theorem c6_divisors_positive (A : MCAgent)
    (ep : List (GWPos × GWAction × ℚ)) (hwf : mcWF A) (hC : mcAllCNonneg A)
    (he0 : 0 ≤ A.epsilon) (he1 : A.epsilon ≤ 1) :
    ∀ d ∈ mcDivisors A ep.reverse 0 1, 0 < d :=
  mcDivisors_pos ep.reverse A 0 1 hwf hC he0 he1 one_pos

def c6Agent : MCAgent := ⟨9/10, 1/5, [], [], []⟩

/-- C6 witness: a fresh agent (first visits everywhere) processing a
two-step episode. -/
theorem c6_divisors_positive_witness :
    mcWF c6Agent ∧ mcAllCNonneg c6Agent ∧
    0 ≤ c6Agent.epsilon ∧ c6Agent.epsilon ≤ 1 ∧
    ∀ d ∈ mcDivisors c6Agent
      ([((0, 0), .north, 1), ((0, 1), .north, 1)] :
        List (GWPos × GWAction × ℚ)).reverse 0 1, 0 < d := by
  have hwf : mcWF c6Agent := ⟨by simp [c6Agent], by simp [c6Agent], rfl, rfl⟩
  have hC : mcAllCNonneg c6Agent := by
    intro p hp
    simp [c6Agent] at hp
  exact ⟨hwf, hC, by norm_num [c6Agent], by norm_num [c6Agent],
    c6_divisors_positive c6Agent _ hwf hC (by norm_num [c6Agent])
      (by norm_num [c6Agent])⟩

/-! ## Monte Carlo early termination (C2) -/

theorem gwne1 : GWAction.south ≠ GWAction.north := by decide

theorem gwne2 : GWAction.west ≠ GWAction.north := by decide

theorem gwne3 : GWAction.east ≠ GWAction.north := by decide

theorem gwne4 : GWAction.north ≠ GWAction.south := by decide

theorem gwne5 : GWAction.west ≠ GWAction.south := by decide

theorem gwne6 : GWAction.east ≠ GWAction.south := by decide

theorem gwne7 : GWAction.north ≠ GWAction.west := by decide

theorem gwne8 : GWAction.south ≠ GWAction.west := by decide

theorem gwne9 : GWAction.east ≠ GWAction.west := by decide

theorem gwne10 : GWAction.north ≠ GWAction.east := by decide

theorem gwne11 : GWAction.south ≠ GWAction.east := by decide

theorem gwne12 : GWAction.west ≠ GWAction.east := by decide

theorem alookup_append_single_ne {α β : Type} [DecidableEq α]
    (T : List (α × β)) (s' s : α) (row : β) (hss : s ≠ s') :
    alookup (T ++ [(s', row)]) s = alookup T s := by
  cases h : alookup T s with
  | some r => rw [alookup_append_left _ _ _ (by simp [h]), h]
  | none => rw [alookup_append_right _ _ _ h]; simp [alookup, hss, h]

theorem mcInitState_lookup (A : MCAgent) (s' s : GWPos) (a : GWAction)
    (hs : acontains A.Q s = true) :
    tblLookup (mcInitState A s').Q s a = tblLookup A.Q s a ∧
    tblLookup (mcInitState A s').C s a = tblLookup A.C s a := by
  unfold mcInitState
  by_cases hc : acontains A.Q s' <;> simp [hc]
  have hss : s ≠ s' := by
    intro h
    rw [h] at hs
    exact hc hs
  unfold tblLookup
  rw [alookup_append_single_ne _ _ _ _ hss, alookup_append_single_ne _ _ _ _ hss]
  exact ⟨rfl, rfl⟩

theorem tblLookup_tblSet_ne (T : QTable) (s' : GWPos) (a' : GWAction) (v : ℚ)
    (s : GWPos) (a : GWAction) (hne : ¬(s = s' ∧ a = a')) :
    tblLookup (tblSet T s' a' v) s a = tblLookup T s a := by
  unfold tblLookup tblSet
  by_cases hss : s = s'
  · subst hss
    have haa : a ≠ a' := fun hb => hne ⟨rfl, hb⟩
    rw [alookup_amodify_self]
    cases h : alookup T s <;> simp [alookup_aset_ne _ _ _ _ haa]
  · rw [alookup_amodify_ne _ _ _ _ hss]

theorem mcStepBody_frame (A : MCAgent) (s' : GWPos) (a' : GWAction) (G W : ℚ)
    (s : GWPos) (a : GWAction) (hne : ¬(s = s' ∧ a = a'))
    (hs : acontains A.Q s = true) :
    tblLookup (mcStepBody A s' a' G W).Q s a = tblLookup A.Q s a ∧
    tblLookup (mcStepBody A s' a' G W).C s a = tblLookup A.C s a := by
  have hinit := mcInitState_lookup A s' s a hs
  have hQ : (mcStepBody A s' a' G W).Q =
      tblSet (mcInitState A s').Q s' a'
        (tblGet (mcInitState A s').Q s' a' +
          (W / tblGet (tblSet (mcInitState A s').C s' a'
            (tblGet (mcInitState A s').C s' a' + W)) s' a') *
          (G - tblGet (mcInitState A s').Q s' a')) := rfl
  have hC : (mcStepBody A s' a' G W).C =
      tblSet (mcInitState A s').C s' a'
        (tblGet (mcInitState A s').C s' a' + W) := rfl
  constructor
  · rw [hQ, tblLookup_tblSet_ne _ _ _ _ _ _ hne]
    exact hinit.1
  · rw [hC, tblLookup_tblSet_ne _ _ _ _ _ _ hne]
    exact hinit.2

theorem mcStepBody_contains_Q_mono (A : MCAgent) (s' : GWPos) (a' : GWAction)
    (G W : ℚ) (s : GWPos) (hs : acontains A.Q s = true) :
    acontains (mcStepBody A s' a' G W).Q s = true := by
  rw [acontains_of_keys_eq (mcStepBody A s' a' G W).Q (mcInitState A s').Q s
    (keys_tblSet _ _ _ _)]
  exact mcInitState_contains_Q_mono A s' s hs

theorem mcUpdateGo_frame (steps : List (GWPos × GWAction × ℚ)) :
    ∀ (A : MCAgent) (G W : ℚ) (s : GWPos) (a : GWAction),
    acontains A.Q s = true →
    (s, a) ∉ steps.map (fun e => (e.1, e.2.1)) →
    tblLookup (mcUpdateGo A steps G W).Q s a = tblLookup A.Q s a ∧
    tblLookup (mcUpdateGo A steps G W).C s a = tblLookup A.C s a := by
  induction steps with
  | nil => intro A G W s a _ _; exact ⟨rfl, rfl⟩
  | cons p rest ih =>
    intro A G W s a hs hnot
    obtain ⟨s', a', r'⟩ := p
    simp only [List.map_cons, List.mem_cons] at hnot
    push_neg at hnot
    obtain ⟨hhd, htl⟩ := hnot
    have hne : ¬(s = s' ∧ a = a') := by
      intro ⟨h1, h2⟩
      exact hhd (by rw [h1, h2])
    have hframe := mcStepBody_frame A s' a' (A.gamma * G + r') W s a hne hs
    have hs2 := mcStepBody_contains_Q_mono A s' a' (A.gamma * G + r') W s hs
    have hgo : mcUpdateGo A ((s', a', r') :: rest) G W =
        (if a' = piGet (mcStepBody A s' a' (A.gamma * G + r') W).pi s' then
          mcUpdateGo (mcStepBody A s' a' (A.gamma * G + r') W) rest
            (A.gamma * G + r')
            (W / mcBehaviorProb (mcStepBody A s' a' (A.gamma * G + r') W) s' a')
        else mcStepBody A s' a' (A.gamma * G + r') W) := rfl
    rw [hgo]
    by_cases hbr : a' = piGet (mcStepBody A s' a' (A.gamma * G + r') W).pi s'
    · rw [if_pos hbr]
      have hrec := ih (mcStepBody A s' a' (A.gamma * G + r') W)
        (A.gamma * G + r')
        (W / mcBehaviorProb (mcStepBody A s' a' (A.gamma * G + r') W) s' a')
        s a hs2 htl
      exact ⟨hrec.1.trans hframe.1, hrec.2.trans hframe.2⟩
    · rw [if_neg hbr]
      exact hframe

theorem mcStopRev_lt_length (steps : List (GWPos × GWAction × ℚ)) :
    ∀ (A : MCAgent) (G W : ℚ) (j : ℕ),
    mcStopRev A steps G W = some j → j < steps.length := by
  induction steps with
  | nil => intro A G W j h; simp [mcStopRev] at h
  | cons p rest ih =>
    intro A G W j h
    obtain ⟨s, a, r⟩ := p
    have hs : mcStopRev A ((s, a, r) :: rest) G W =
        (if a = piGet (mcStepBody A s a (A.gamma * G + r) W).pi s then
          (mcStopRev (mcStepBody A s a (A.gamma * G + r) W) rest
            (A.gamma * G + r)
            (W / mcBehaviorProb (mcStepBody A s a (A.gamma * G + r) W) s a)).map
              (fun j => j + 1)
        else some 0) := rfl
    rw [hs] at h
    by_cases hbr : a = piGet (mcStepBody A s a (A.gamma * G + r) W).pi s
    · rw [if_pos hbr] at h
      rcases Option.map_eq_some'.mp h with ⟨j', hj', hjj⟩
      have := ih _ _ _ _ hj'
      simp only [List.length_cons]
      omega
    · rw [if_neg hbr] at h
      simp at h
      simp [← h]

theorem mcUpdateGo_stop_take (steps : List (GWPos × GWAction × ℚ)) :
    ∀ (A : MCAgent) (G W : ℚ) (j : ℕ), mcStopRev A steps G W = some j →
    mcUpdateGo A steps G W = mcUpdateGo A (steps.take (j + 1)) G W := by
  induction steps with
  | nil => intro A G W j h; simp [mcStopRev] at h
  | cons p rest ih =>
    intro A G W j h
    obtain ⟨s, a, r⟩ := p
    have hstopeq : mcStopRev A ((s, a, r) :: rest) G W =
        (if a = piGet (mcStepBody A s a (A.gamma * G + r) W).pi s then
          (mcStopRev (mcStepBody A s a (A.gamma * G + r) W) rest
            (A.gamma * G + r)
            (W / mcBehaviorProb (mcStepBody A s a (A.gamma * G + r) W) s a)).map
              (fun j => j + 1)
        else some 0) := rfl
    rw [hstopeq] at h
    have hgo : ∀ tail, mcUpdateGo A ((s, a, r) :: tail) G W =
        (if a = piGet (mcStepBody A s a (A.gamma * G + r) W).pi s then
          mcUpdateGo (mcStepBody A s a (A.gamma * G + r) W) tail
            (A.gamma * G + r)
            (W / mcBehaviorProb (mcStepBody A s a (A.gamma * G + r) W) s a)
        else mcStepBody A s a (A.gamma * G + r) W) := fun tail => rfl
    by_cases hbr : a = piGet (mcStepBody A s a (A.gamma * G + r) W).pi s
    · rw [if_pos hbr] at h
      rcases Option.map_eq_some'.mp h with ⟨j', hj', hjj⟩
      rw [← hjj]
      show mcUpdateGo A ((s, a, r) :: rest) G W =
        mcUpdateGo A ((s, a, r) :: rest.take (j' + 1)) G W
      rw [hgo rest, hgo (rest.take (j' + 1)), if_pos hbr, if_pos hbr]
      exact ih _ _ _ _ hj'
    · rw [if_neg hbr] at h
      simp at h
      rw [← h]
      show mcUpdateGo A ((s, a, r) :: rest) G W =
        mcUpdateGo A [(s, a, r)] G W
      rw [hgo rest, hgo [], if_neg hbr, if_neg hbr]

theorem reverse_take_eq_drop_reverse {α : Type} (l : List α) (n : ℕ) :
    l.reverse.take n = (l.drop (l.length - n)).reverse := by
  have h := List.rtake_eq_reverse_take_reverse l n
  unfold List.rtake at h
  rw [h, List.reverse_reverse]

/-- C2: if the backward pass of `update` stops at episode index `t` (the
taken action at step `t` differs from the greedy target action freshly
recomputed after the step-`t` update), then the pass processed only the
suffix from `t`, and every `(state, action)` pair present before the pass
and not occurring at an index `≥ t` keeps exactly its previous `Q` and
`C` entries. -/
theorem c2_early_stop (A : MCAgent) (ep : List (GWPos × GWAction × ℚ))
    (t : ℕ) (s : GWPos) (a : GWAction)
    (hstop : mcStopIndex A ep = some t)
    (hs : acontains A.Q s = true)
    (hnot : (s, a) ∉ (ep.drop t).map (fun e => (e.1, e.2.1))) :
    mcUpdate A ep = mcUpdateGo A (ep.drop t).reverse 0 1 ∧
    tblLookup (mcUpdate A ep).Q s a = tblLookup A.Q s a ∧
    tblLookup (mcUpdate A ep).C s a = tblLookup A.C s a := by
  unfold mcStopIndex at hstop
  rcases Option.map_eq_some'.mp hstop with ⟨j, hj, ht⟩
  have hjlt : j < ep.length := by
    have := mcStopRev_lt_length ep.reverse A 0 1 j hj
    simpa using this
  have hlen : ep.length - (j + 1) = t := by omega
  have htake : ep.reverse.take (j + 1) = (ep.drop t).reverse := by
    rw [reverse_take_eq_drop_reverse, hlen]
  have hupd : mcUpdate A ep = mcUpdateGo A (ep.drop t).reverse 0 1 := by
    unfold mcUpdate
    rw [mcUpdateGo_stop_take ep.reverse A 0 1 j hj, htake]
  have hnot' : (s, a) ∉ ((ep.drop t).reverse).map (fun e => (e.1, e.2.1)) := by
    intro hmem
    rw [List.map_reverse, List.mem_reverse] at hmem
    exact hnot hmem
  have hframe := mcUpdateGo_frame (ep.drop t).reverse A 0 1 s a hs hnot'
  exact ⟨hupd, by rw [hupd]; exact hframe.1, by rw [hupd]; exact hframe.2⟩

def c2Agent : MCAgent :=
  ⟨9/10, 1/10, [((0, 0), zeroRow)], [((0, 0), zeroRow)], [((0, 0), .north)]⟩

def c2Episode : List (GWPos × GWAction × ℚ) :=
  [((0, 0), .north, -1), ((0, 1), .south, -1)]

/-- C2 witness: an episode whose last step takes SOUTH while the freshly
updated greedy action is NORTH, so the pass stops at index 1 and the
`((0,0), NORTH)` entries of step 0 are untouched. -/
theorem c2_early_stop_witness :
    mcStopIndex c2Agent c2Episode = some 1 ∧
    acontains c2Agent.Q (0, 0) = true ∧
    ((0, 0), GWAction.north) ∉
      (c2Episode.drop 1).map (fun e => (e.1, e.2.1)) ∧
    (mcUpdate c2Agent c2Episode =
      mcUpdateGo c2Agent (c2Episode.drop 1).reverse 0 1 ∧
    tblLookup (mcUpdate c2Agent c2Episode).Q (0, 0) .north =
      tblLookup c2Agent.Q (0, 0) .north ∧
    tblLookup (mcUpdate c2Agent c2Episode).C (0, 0) .north =
      tblLookup c2Agent.C (0, 0) .north) := by
  have h1 : mcStopIndex c2Agent c2Episode = some 1 := by
    norm_num [mcStopIndex, mcStopRev, mcStepBody, mcInitState, mcBehaviorProb,
      acontains, alookup, tblGet, tblSet, tblLookup, rowGet, aset, amodify,
      piGet, rowArgmax, argmaxRow, argmaxAux, zeroRow, gwActions, c2Agent,
      c2Episode, gwne1, gwne2, gwne3, gwne4, gwne5, gwne6, gwne7, gwne8,
      gwne9, gwne10, gwne11, gwne12]
  refine ⟨h1, by decide, by decide,
    c2_early_stop c2Agent c2Episode 1 (0, 0) .north h1 (by decide) (by decide)⟩

/-! ## Value iteration stopping characterization (C3) -/

theorem dpVIAux_iff (gamma phi : ℚ) :
    ∀ (n : ℕ) (V W : DPState → ℚ),
    dpValueIterationAux gamma phi n V = some W ↔
      ∃ k, k < n ∧
        (∀ j < k, ¬ dpDelta ((dpSweep gamma)^[j] V)
          ((dpSweep gamma)^[j + 1] V) < phi) ∧
        dpDelta ((dpSweep gamma)^[k] V) ((dpSweep gamma)^[k + 1] V) < phi ∧
        W = (dpSweep gamma)^[k + 1] V := by
  intro n
  induction n with
  | zero =>
    intro V W
    simp [dpValueIterationAux]
  | succ n ih =>
    intro V W
    have heq : dpValueIterationAux gamma phi (n + 1) V =
        (if dpDelta V (dpSweep gamma V) < phi then some (dpSweep gamma V)
        else dpValueIterationAux gamma phi n (dpSweep gamma V)) := rfl
    rw [heq]
    by_cases h0 : dpDelta V (dpSweep gamma V) < phi
    · rw [if_pos h0]
      constructor
      · intro hW
        refine ⟨0, Nat.succ_pos n, ?_, ?_, ?_⟩
        · intro j hj; omega
        · simpa using h0
        · simpa using (Option.some_injective _ hW).symm
      · rintro ⟨k, hk, hmin, hdel, hWeq⟩
        cases k with
        | zero => rw [hWeq]; simp
        | succ k' =>
          exfalso
          exact hmin 0 (Nat.succ_pos k') (by simpa using h0)
    · rw [if_neg h0]
      rw [ih (dpSweep gamma V) W]
      constructor
      · rintro ⟨k, hk, hmin, hdel, hWeq⟩
        refine ⟨k + 1, by omega, ?_, ?_, ?_⟩
        · intro j hj
          cases j with
          | zero => simpa using h0
          | succ j' =>
            have hj' := hmin j' (by omega)
            simpa [Function.iterate_succ_apply] using hj'
        · simpa [Function.iterate_succ_apply] using hdel
        · rw [hWeq]; simp [Function.iterate_succ_apply]
      · rintro ⟨k, hk, hmin, hdel, hWeq⟩
        cases k with
        | zero => exact absurd (by simpa using hdel) h0
        | succ k' =>
          refine ⟨k', by omega, ?_, ?_, ?_⟩
          · intro j hj
            have hj' := hmin (j + 1) (by omega)
            simpa [Function.iterate_succ_apply] using hj'
          · simpa [Function.iterate_succ_apply] using hdel
          · rw [hWeq]; simp [Function.iterate_succ_apply]

/-- C3: value iteration starts from the all-zero value function over the
model's states; each round replaces every state's value by the Bellman
optimality backup (maximum over the four actions of the expected one-step
return) computed from the pre-sweep value function; and the loop, at its
default `gamma = 0.9` and `phi = 1e-4`, returns a result within `n` rounds
exactly when some round `k` is the first whose largest absolute change
`delta` falls below `phi`, the result being the `(k+1)`-fold sweep of the
zero function. -/
theorem c3_value_iteration_characterized (n : ℕ) (W : DPState → ℚ) :
    (∀ s, dpV0 s = 0) ∧
    (∀ V s, dpSweep (9/10) V s =
      max (dpActionValue (9/10) V s .north)
        (max (dpActionValue (9/10) V s .south)
          (max (dpActionValue (9/10) V s .west)
            (dpActionValue (9/10) V s .east)))) ∧
    (dpValueIteration n = some W ↔
      ∃ k, k < n ∧
        (∀ j < k, ¬ dpDelta ((dpSweep (9/10))^[j] dpV0)
          ((dpSweep (9/10))^[j + 1] dpV0) < 1/10000) ∧
        dpDelta ((dpSweep (9/10))^[k] dpV0)
          ((dpSweep (9/10))^[k + 1] dpV0) < 1/10000 ∧
        W = (dpSweep (9/10))^[k + 1] dpV0) :=
  ⟨fun _ => rfl, fun _ _ => rfl, dpVIAux_iff (9/10) (1/10000) n dpV0 W⟩
